import Mathlib

/-!
A verification development for the `ed_join` string-similarity-join program
(sources: `src/qgram.rs`, `src/matching.rs`, `src/verification.rs`).

The Rust code is shallowly embedded: records and tokens are byte lists
(`List Nat`, each entry < 256), the inverted index is an association list,
and every operation is an executable Lean function translated directly from
the corresponding Rust function.  Operations that can panic in Rust
(out-of-bounds slicing, `from_utf8(..).expect(..)` on an invalid byte window,
out-of-bounds `Vec` indexing) are modelled in the `Option` monad, `none`
standing for a panic.

Rayon parallelism notes, justified where used:
* `par_sort_by_key` (used for the final output vector) is a stable sort; it is
  modelled by a stable insertion sort.
* `par_sort_unstable*` calls are modelled by the same stable sort; everywhere
  this matters the sort keys are distinct (locations of the q-grams of one
  record are distinct, candidate ids are deduplicated), except for the
  frequency sort where only entries with literally identical tokens compare
  equal; the embedding fixes the stable order as a representative of the
  unspecified tie order.
* `par_iter().map(..).filter_map(..).collect::<Vec<_>>()` preserves the order
  of the source iterator in rayon, and is modelled by ordinary list traversal.
-/

namespace EdJoin

/-- Absolute difference of naturals, modelling `(a as isize - b as isize).abs()`
on values that fit in `isize` (record lengths and offsets). -/
def natAbsDiff (a b : Nat) : Nat := (a - b) + (b - a)

/-- Insert `a` into `l`, keeping every element `b` with `lt b a` in front, so
`a` lands before the first element that is not strictly below it.  Used by
`sortBy`; the resulting sort is stable. -/
def insertBy (lt : α → α → Bool) (a : α) : List α → List α
  | [] => [a]
  | b :: l => if lt b a then b :: insertBy lt a l else a :: b :: l

/-- Stable insertion sort by a strict comparator: elements that compare equal
keep their input order. -/
def sortBy (lt : α → α → Bool) : List α → List α
  | [] => []
  | a :: l => insertBy lt a (sortBy lt l)

/-- Lexicographic strict order on byte sequences, as `Ord` on Rust `&[u8]`
(used through `token.as_bytes().cmp(..)`). -/
def tokenLt : List Nat → List Nat → Bool
  | _, [] => false
  | [], _ :: _ => true
  | a :: s, b :: t => if a < b then true else if b < a then false else tokenLt s t

/-- Is `b` a UTF-8 continuation byte (`0x80..=0xBF`)? -/
def utf8Cont (b : Nat) : Bool := 0x80 ≤ b && b ≤ 0xBF

/-- UTF-8 validity of a byte sequence, as checked by Rust's
`std::str::from_utf8` (disallowing overlong encodings, surrogates, and
values above U+10FFFF). -/
def utf8Valid : List Nat → Bool
  | [] => true
  | b :: l =>
    if b ≤ 0x7F then utf8Valid l
    else if 0xC2 ≤ b && b ≤ 0xDF then
      match l with
      | c1 :: l2 => utf8Cont c1 && utf8Valid l2
      | [] => false
    else if b == 0xE0 then
      match l with
      | c1 :: c2 :: l2 => (0xA0 ≤ c1 && c1 ≤ 0xBF) && utf8Cont c2 && utf8Valid l2
      | _ => false
    else if (0xE1 ≤ b && b ≤ 0xEC) || b == 0xEE || b == 0xEF then
      match l with
      | c1 :: c2 :: l2 => utf8Cont c1 && utf8Cont c2 && utf8Valid l2
      | _ => false
    else if b == 0xED then
      match l with
      | c1 :: c2 :: l2 => (0x80 ≤ c1 && c1 ≤ 0x9F) && utf8Cont c2 && utf8Valid l2
      | _ => false
    else if b == 0xF0 then
      match l with
      | c1 :: c2 :: c3 :: l2 => (0x90 ≤ c1 && c1 ≤ 0xBF) && utf8Cont c2 && utf8Cont c3 && utf8Valid l2
      | _ => false
    else if 0xF1 ≤ b && b ≤ 0xF3 then
      match l with
      | c1 :: c2 :: c3 :: l2 => utf8Cont c1 && utf8Cont c2 && utf8Cont c3 && utf8Valid l2
      | _ => false
    else if b == 0xF4 then
      match l with
      | c1 :: c2 :: c3 :: l2 => (0x80 ≤ c1 && c1 ≤ 0x8F) && utf8Cont c2 && utf8Cont c3 && utf8Valid l2
      | _ => false
    else false

/-- The overlapping windows of length `q` of a byte sequence, modelling
`Vec::from(s).par_windows(q)` (`qgram.rs:100-101`, `qgram.rs:210-211`).
Rust's `windows` yields `len - q + 1` slices when `q ≤ len`, and none when
`q > len`; it panics for `q = 0`, a case never reached since the program
validates `q ≥ 1` (here `q = 0` just yields no windows). -/
def windows (s : List Nat) (q : Nat) : List (List Nat) :=
  if 1 ≤ q ∧ q ≤ s.length then
    (List.range (s.length + 1 - q)).map (fun i => (s.drop i).take q)
  else []

/-- A positional q-gram: a token (the bytes of the Rust `String`) and the
byte offset of its start in the record (`qgram.rs:24-27`). -/
structure PosQGram where
  token : List Nat
  loc : Nat
deriving DecidableEq

/-- The default `PosQGram` (`#[derive(Default)]`): empty token at location 0. -/
def PosQGram.dflt : PosQGram := ⟨[], 0⟩

/-- `PosQGramArray::from(s, q)` (`qgram.rs:99-118`): each byte window of
length `q` is parsed back to a `String` with
`std::str::from_utf8(..).expect(..)` — a panic (modelled as `none`) as soon as
one window is not valid UTF-8 — and paired with its position.  The final
in-place sort by location is the identity because positions are produced in
increasing order. -/
def posQGramArrayFrom (s : List Nat) (q : Nat) : Option (List PosQGram) :=
  let ws := windows s q
  if ws.all utf8Valid then some (ws.enum.map fun p => ⟨p.2, p.1⟩) else none

/-- The inverted index (`qgram.rs:177`): an association list from tokens to
(posting list of `(line id, location)` pairs, global frequency), modelling the
Rust `HashMap` (whose iteration order the program's output never depends on). -/
abbrev Index := List (List Nat × (List (Nat × Nat) × Nat))

/-- Lookup in the index.  The Rust sites do `invert.get(token).unwrap()`; the
unwrap can only be reached for tokens present in the index, so a default
entry (empty postings, frequency 0) stands for the unreachable `None` case. -/
def idxGet (m : Index) (t : List Nat) : List (Nat × Nat) × Nat :=
  ((m.find? (fun e => e.1 == t)).getD (t, ([], 0))).2

/-- Append a posting to a token's list, inserting a fresh entry when the token
is new (the `entry(..).or_insert(..)` of `qgram.rs:226-230`). -/
def idxPush (m : Index) (t : List Nat) (p : Nat × Nat) : Index :=
  match m with
  | [] => [(t, ([p], 0))]
  | e :: rest =>
    if e.1 == t then (e.1, (e.2.1 ++ [p], e.2.2)) :: rest
    else e :: idxPush rest t p

/-- Increment a token's frequency, inserting a fresh empty-postings entry when
the token is new (the `entry(..).or_insert(..); *count += 1` of
`qgram.rs:264-267`). -/
def idxBump (m : Index) (t : List Nat) : Index :=
  match m with
  | [] => [(t, ([], 1))]
  | e :: rest =>
    if e.1 == t then (e.1, (e.2.1, e.2.2 + 1)) :: rest
    else e :: idxBump rest t

/-- Set every frequency to the length of its posting list
(`qgram.rs:235-238`). -/
def idxSetCounts (m : Index) : Index :=
  m.map (fun e => (e.1, (e.2.1, e.2.1.length)))

/-- `generate_inverted_index(doc_x, doc_y, q)` (`qgram.rs:194-279`).
Postings come from `doc_y`; frequencies count `doc_y` occurrences, plus
`doc_x` occurrences when the two paths differ (`sameDoc = false`).
`str::from_utf8(..).expect(..)` on each window panics on invalid UTF-8
(modelled as `none`).  Posting lists are produced here already sorted by line
id, so the final unstable per-token sort by id is a no-op up to the order of
equal ids, which nothing downstream observes (postings are only filtered and
projected to ids, then sorted and deduplicated). -/
def genInvertedIndex (docX docY : List (List Nat)) (sameDoc : Bool) (q : Nat) :
    Option Index :=
  if (docY.all fun line => (windows line q).all utf8Valid) &&
     (sameDoc || docX.all fun line => (windows line q).all utf8Valid) then
    let m0 : Index := (docY.enum).foldl
      (fun m li => ((windows li.2 q).enum).foldl
        (fun m pw => idxPush m pw.2 (li.1, pw.1)) m) []
    let m1 := idxSetCounts m0
    some (if sameDoc then m1
          else docX.foldl (fun m line => (windows line q).foldl idxBump m) m1)
  else none

/-- The strict comparator of `PosQGramArray::sort_by_frequency`
(`qgram.rs:124-134`) and of the token comparison in `compare_qgrams`
(`verification.rs:64-66`): ascending global frequency, ties by lexicographic
byte order of the token. -/
def freqLt (idx : Index) (a b : PosQGram) : Bool :=
  let fa := (idxGet idx a.token).2
  let fb := (idxGet idx b.token).2
  if fa < fb then true else if fb < fa then false else tokenLt a.token b.token

/-- `sort_by_frequency` (`qgram.rs:124-134`); `par_sort_unstable_by` with ties
only between entries carrying the same token, fixed here to the stable order. -/
def sortByFrequency (idx : Index) (l : List PosQGram) : List PosQGram :=
  sortBy (freqLt idx) l

/-- `sort_by_location` (`qgram.rs:136-138`, `verification.rs:77`,
`verification.rs:283`): sort positional q-grams by ascending location. -/
def sortByLocation (l : List PosQGram) : List PosQGram :=
  sortBy (fun a b => a.loc < b.loc) l

/-- One step of the sweep in `min_edit_errors` (`matching.rs:42-47`): state is
`(cnt, loc)`; an element whose location is past the cursor bumps the count and
moves the cursor to `loc + q - 1`. -/
def meeStep (q : Nat) (s : Nat × Nat) (g : PosQGram) : Nat × Nat :=
  if s.2 < g.loc then (s.1 + 1, g.loc + q - 1) else s

/-- `min_edit_errors(qgram_array, q)` (`matching.rs:31-50`).  Note the source
clones the slice and sorts the clone by location (`matching.rs:35-40`) but
then iterates over the ORIGINAL, unsorted slice (`matching.rs:42`); the
embedding reproduces that behaviour by sweeping the input in its given order. -/
def minEditErrors (arr : List PosQGram) (q : Nat) : Nat :=
  (arr.foldl (meeStep q) (0, 0)).1

/-- The sweep of `min_edit_errors` applied after re-sorting by ascending
location.  This follows the words of the specification (§4.3: "take a copy and
re-sort by ascending loc", then sweep); it is the comparison point for the
claim that `min_edit_errors` behaves like the sweep over the re-sorted array. -/
def minEditErrorsSortedFirst (arr : List PosQGram) (q : Nat) : Nat :=
  minEditErrors (sortByLocation arr) q

/-- The binary-search loop of `calc_prefix_len` (`matching.rs:71-79`),
written with explicit fuel (the interval length shrinks every iteration, so
any fuel ≥ `right - left` reaches the exit). -/
def cplGo (arr : List PosQGram) (q tau : Nat) : Nat → Nat → Nat → Nat
  | 0, left, _right => left
  | fuel + 1, left, right =>
    if left < right then
      let mid := (left + right) / 2
      let err := minEditErrors (arr.take (min mid arr.length)) q
      if err ≤ tau then cplGo arr q tau fuel (mid + 1) right
      else cplGo arr q tau fuel left mid
    else left

/-- `calc_prefix_len(qgram_array, q, tau)` (`matching.rs:64-88`): binary search
for the prefix length over `[tau+1, q*tau+1]`, evaluating `min_edit_errors` on
the first `min(mid, len)` elements, then clamping the result to the array
length. -/
def calcPrefixLen (arr : List PosQGram) (q tau : Nat) : Nat :=
  min (cplGo arr q tau (q * tau + 1 - (tau + 1)) (tau + 1) (q * tau + 1)) arr.length

/-- The loose-mismatch test of the `comparator` closure in `compare_qgrams`
(`verification.rs:42-45`): the element `x[i]` being skipped counts as a loose
mismatch iff it differs from `x[i-1]`'s token, or differs from `y[j-1]`'s
token, or sits further than `slack` from `y[j-1]`'s location.  `slack` is the
parameter the source names `tau`. -/
def looseCond (x y : List PosQGram) (i j slack : Nat) : Bool :=
  let xi := x.getD i PosQGram.dflt
  (decide (1 ≤ i) && !(xi.token == (x.getD (i - 1) PosQGram.dflt).token)) ||
  (decide (1 ≤ j) && !(xi.token == (y.getD (j - 1) PosQGram.dflt).token)) ||
  (decide (1 ≤ j) && decide (slack < natAbsDiff xi.loc (y.getD (j - 1) PosQGram.dflt).loc))

/-- The two-pointer loop of `compare_qgrams` (`verification.rs:54-75`),
including the drain of the remaining `x` elements once `y` is exhausted.
Every step advances `i` or `j`, so fuel `|x| + |y|` reaches the exit. -/
def cqGo (idx : Index) (x y : List PosQGram) (slack : Nat) :
    Nat → Nat → Nat → Nat → List PosQGram → List PosQGram × Nat
  | 0, _, _, eps, loose => (loose, eps)
  | fuel + 1, i, j, eps, loose =>
    if i < x.length then
      let xi := x.getD i PosQGram.dflt
      let adv := fun (_ : Unit) =>
        cqGo idx x y slack fuel (i + 1) j (eps + 1)
          (if looseCond x y i j slack then loose ++ [xi] else loose)
      if j < y.length then
        let yj := y.getD j PosQGram.dflt
        if xi.token == yj.token then
          if natAbsDiff xi.loc yj.loc ≤ slack then
            cqGo idx x y slack fuel (i + 1) (j + 1) eps loose
          else if xi.loc < yj.loc then adv ()
          else cqGo idx x y slack fuel i (j + 1) eps loose
        else if freqLt idx xi yj then adv ()
        else cqGo idx x y slack fuel i (j + 1) eps loose
      else adv ()
    else (loose, eps)

/-- `compare_qgrams(x, y, invert, tau)` (`verification.rs:25-80`): returns the
loose-mismatch list, sorted by ascending location, and the strict-mismatch
count.  The third positional argument plays the role the source calls `tau`;
`verify` actually passes `q` there (`verification.rs:262`). -/
def compareQgrams (idx : Index) (x y : List PosQGram) (slack : Nat) :
    List PosQGram × Nat :=
  let r := cqGo idx x y slack (x.length + y.length) 0 0 0 []
  (sortByLocation r.1, r.2)

/-- `sum_right_errors(qgram_array, q)` (`verification.rs:93-118`): reverse the
array, sweep with a cursor initialised past the last location, and record the
accumulated suffix error counts; `None` on an empty array.  `loc + 1 - q`
truncated at zero matches the source's explicit underflow guard
(`verification.rs:107-111`). -/
def sumRightErrors (arr : List PosQGram) (q : Nat) : Option (List (Nat × Nat)) :=
  match arr.reverse with
  | [] => none
  | a0 :: rest =>
    let step := fun (s : Nat × Nat × List (Nat × Nat)) (g : PosQGram) =>
      if g.loc < s.1 then (g.loc + 1 - q, s.2.1 + 1, s.2.2 ++ [(g.loc, s.2.1 + 1)]) else s
    some (((a0 :: rest).foldl step (a0.loc + 1, 0, [])).2.2)

/-- Is byte offset `i` a character boundary of the UTF-8 string `s`
(Rust `str::is_char_boundary`): offset 0, the end, or a non-continuation
byte. -/
def isCharBoundary (s : List Nat) (i : Nat) : Bool :=
  i == 0 || i == s.length || (decide (i < s.length) && !utf8Cont (s.getD i 0))

/-- Rust string slicing `s[lo..hi]` (`verification.rs:142-143`): the byte
range, provided `lo ≤ hi ≤ s.len()` and both ends are char boundaries;
otherwise a panic, modelled as `none`. -/
def strSlice (s : List Nat) (lo hi : Nat) : Option (List Nat) :=
  if lo ≤ hi ∧ hi ≤ s.length ∧ isCharBoundary s lo ∧ isCharBoundary s hi then
    some ((s.take hi).drop lo)
  else none

/-- The L1 distance between the character-frequency histograms of two byte
slices (`frequency_histogram` and the vector fold of `l1_distance`,
`verification.rs:120-163`): sum over the distinct characters of either slice
of the absolute count difference.  Characters are modelled as bytes, which
coincides with `str::chars` on ASCII content (all evaluated inputs are
ASCII). -/
def l1OfSlices (u v : List Nat) : Nat :=
  ((u ++ v).dedup).foldl (fun acc c => acc + natAbsDiff (u.count c) (v.count c)) 0

/-- `l1_distance(s, t, lo, hi)` (`verification.rs:141-164`): slice both
strings to the probing window and compare histograms; a panic (`none`) when
the window is out of bounds or off a char boundary for either string. -/
def l1Distance (s t : List Nat) (lo hi : Nat) : Option Nat := do
  let u ← strSlice s lo hi
  let v ← strSlice t lo hi
  pure (l1OfSlices u v)

/-- The `epsi` closure of `content_filter` (`verification.rs:192-200`):
`⌊L1/2⌋` over the probing window `[mismatch[jj].loc, mismatch[ii-1].loc+q-1)`
plus the right error of the first suffix-sum entry at or past the window's
end.  `none` when `l1_distance` panics. -/
def cfEpsi (s t : List Nat) (mm : List PosQGram) (ss : List (Nat × Nat))
    (q ii jj : Nat) : Option Nat := do
  let lastLoc := (mm.getD (ii - 1) PosQGram.dflt).loc
  let l1 ← l1Distance s t (mm.getD jj PosQGram.dflt).loc (lastLoc + q - 1)
  let rightError := ((ss.find? (fun e => lastLoc + q ≤ e.1)).getD (0, 0)).2
  pure (l1 / 2 + rightError)

/-- The scan loop of `content_filter` (`verification.rs:204-216`): walk the
mismatch list, and at every gap of more than 1 between consecutive locations
evaluate `epsi`; short-circuit with `2*tau+1` if it exceeds `tau`, else
remember the run start; after the loop evaluate `epsi` once more at the end.
Called with fuel `|mm| - i`, so fuel 0 is exactly the final evaluation. -/
def cfGo (s t : List Nat) (mm : List PosQGram) (ss : List (Nat × Nat))
    (q tau : Nat) : Nat → Nat → Nat → Option Nat
  | 0, i, j => cfEpsi s t mm ss q i j
  | fuel + 1, i, j =>
    if (mm.getD i PosQGram.dflt).loc - (mm.getD (i - 1) PosQGram.dflt).loc > 1 then
      match cfEpsi s t mm ss q i j with
      | none => none
      | some eps =>
        if eps > tau then some (2 * tau + 1)
        else cfGo s t mm ss q tau fuel (i + 1) i
    else cfGo s t mm ss q tau fuel (i + 1) j

/-- `content_filter(from, to, mismatch, suffix_sum, q, tau)`
(`verification.rs:180-220`): `some none` when fewer than two mismatches (the
source returns `None`, the filter is skipped); `some (some v)` for a normal
return of `Some(v)`; `none` for a panic inside `l1_distance`. -/
def contentFilter (s t : List Nat) (mm : List PosQGram) (ss : List (Nat × Nat))
    (q tau : Nat) : Option (Option Nat) :=
  if 2 ≤ mm.length then
    match cfGo s t mm ss q tau (mm.length - 1) 1 0 with
    | none => none
    | some v => some (some v)
  else some none

/-- Levenshtein distance by the textbook recurrence, with fuel `|s| + |t|`
(every recursive call shrinks the total length).  This is the contract of the
external `edit_distance` crate used at `verification.rs:319`; on ASCII the
crate's char-level distance coincides with this byte-level one. -/
def levFuel : Nat → List Nat → List Nat → Nat
  | 0, s, t => s.length + t.length
  | _ + 1, [], t => t.length
  | _ + 1, a :: s, [] => (a :: s).length
  | fuel + 1, a :: s, b :: t =>
    if a == b then levFuel fuel s t
    else 1 + min (levFuel fuel s t) (min (levFuel fuel (a :: s) t) (levFuel fuel s (b :: t)))

/-- Levenshtein edit distance between two byte strings. -/
def levenshtein (s t : List Nat) : Nat := levFuel (s.length + t.length) s t

/-- `verify(x, line_id, line_content, y, candidate_id, candidate_content,
inverted, q, tau)` (`verification.rs:239-394`).  Both arrays are re-sorted by
frequency; `compare_qgrams` is invoked with `q` in its `tau` slot, exactly as
the source does at `verification.rs:262`; then the count, location, and
content filters gate the final edit-distance check.  Result: `none` = panic,
`some none` = no match, `some (some (line_id, [(candidate_id, ed)]))` = match. -/
def verify (x : List PosQGram) (lineId : Nat) (lineContent : List Nat)
    (y : List PosQGram) (candidateId : Nat) (candidateContent : List Nat)
    (idx : Index) (q tau : Nat) : Option (Option (Nat × List (Nat × Nat))) :=
  let xf := sortByFrequency idx x
  let yf := sortByFrequency idx y
  let r := compareQgrams idx xf yf q
  let epsilon1 := r.2
  if epsilon1 ≤ q * tau then
    let loose := sortByLocation r.1
    let epsilon2 := minEditErrors loose q
    if epsilon2 ≤ tau then
      let edCheck := fun (_ : Unit) =>
        let ed := levenshtein lineContent candidateContent
        if ed ≤ tau then some (some (lineId, [(candidateId, ed)])) else some none
      match sumRightErrors loose q with
      | some suffixSum =>
        match contentFilter lineContent candidateContent loose suffixSum q tau with
        | none => none
        | some (some v) => if v ≤ tau then edCheck () else some none
        | some none => edCheck ()
      | none => edCheck ()
    else some none
  else some none

/-- The candidate generation of `ed_join` for one record (`matching.rs:171-209`):
probe the posting list of each prefix q-gram, keep postings passing the
self-join line filter, then the length and position filters (reading
`y_vec[y_id]`, a panic — `none` — when the id is outside `y_vec`), and
deduplicate the sorted union of the surviving ids. -/
def candidatesOf (idx : Index) (yVec : List (List Nat)) (sameDoc : Bool)
    (tau xId : Nat) (xLen : Nat) (grams : List PosQGram) : Option (List Nat) := do
  let lists ← grams.mapM (fun g => do
    let posting := (idxGet idx g.token).1
    let kept := posting.filter (fun p => (sameDoc && decide (xId < p.1)) || !sameDoc)
    let ids ← kept.mapM (fun p => do
      let yc ← yVec.get? p.1
      pure (if natAbsDiff yc.length xLen ≤ tau ∧ natAbsDiff g.loc p.2 ≤ tau
            then [p.1] else []))
    pure (List.dedup (sortBy (fun a b : Nat => a < b) ids.flatten)))
  pure (List.dedup (sortBy (fun a b : Nat => a < b) lists.flatten))

/-- Run `step` over the candidate list and keep the matches, in order — the
`map(..).filter_map(verify).collect()` of `matching.rs:214-234`.  `none`
propagates a panic from any candidate. -/
def verifyAll (step : Nat → Option (Option (Nat × List (Nat × Nat)))) :
    List Nat → Option (List (Nat × List (Nat × Nat)))
  | [] => some []
  | c :: cs => do
    let r ← step c
    let rest ← verifyAll step cs
    pure (match r with | some e => e :: rest | none => rest)

/-- The per-record body of `ed_join`'s parallel loop (`matching.rs:154-239`):
build the record's q-gram array, sort by frequency, derive the prefix length,
generate candidates, verify each, and sort each result's pair list by
candidate id (`matching.rs:235`). -/
def processRecord (idx : Index) (yVec : List (List Nat)) (sameDoc : Bool)
    (q tau xId : Nat) (xContent : List Nat) :
    Option (List (Nat × List (Nat × Nat))) := do
  let qx ← posQGramArrayFrom xContent q
  let qxF := sortByFrequency idx qx
  let plen := calcPrefixLen qxF q tau
  let cands ← candidatesOf idx yVec sameDoc tau xId xContent.length (qxF.take plen)
  let vl ← verifyAll (fun yid => do
      let yc ← yVec.get? yid
      let qy ← posQGramArrayFrom yc q
      verify qxF xId xContent qy yid yc idx q tau) cands
  pure (vl.map (fun e => (e.1, sortBy (fun a b : Nat × Nat => a.1 < b.1) e.2)))

/-- Process records `xs` with consecutive line ids starting at `i`, collecting
one result block per record. -/
def recordBlocksGo (idx : Index) (yVec : List (List Nat)) (sameDoc : Bool)
    (q tau : Nat) : Nat → List (List Nat) → Option (List (List (Nat × List (Nat × Nat))))
  | _, [] => some []
  | i, x :: xs => do
    let b ← processRecord idx yVec sameDoc q tau i x
    let rest ← recordBlocksGo idx yVec sameDoc q tau (i + 1) xs
    pure (b :: rest)

/-- The per-record result blocks of a run of `ed_join(doc_x, doc_y, q, tau)`
(`matching.rs:102-239`), in record order.  `sameDoc` is the source's
`doc_x == doc_y` path comparison.  NOTE the `y`-side record buffer is read
from `doc_x` — `File::open(doc_x)` at `matching.rs:108` despite the variable
being `file_y` — so `yVec` is `docX`; only the inverted index sees `docY`. -/
def recordBlocks (docX docY : List (List Nat)) (sameDoc : Bool) (q tau : Nat) :
    Option (List (List (Nat × List (Nat × Nat)))) := do
  let idx ← genInvertedIndex docX docY sameDoc q
  recordBlocksGo idx docX sameDoc q tau 0 docX

/-- The final stable sort of the collected output vector by `x_id`
(`matching.rs:248`, rayon `par_sort_by_key` is stable). -/
def sortOutput (l : List (Nat × List (Nat × Nat))) : List (Nat × List (Nat × Nat)) :=
  sortBy (fun a b => a.1 < b.1) l

/-- The lines written to the output file (`matching.rs:253-261`), given the
result blocks in the order the worker threads delivered them: flatten, sort
stably by `x_id`, and print one `x_id,y_id,ed` line per pair. -/
def outputLines (blocksArrived : List (List (Nat × List (Nat × Nat)))) :
    List (Nat × Nat × Nat) :=
  (sortOutput blocksArrived.flatten).flatMap
    (fun e => e.2.map (fun p => (e.1, p.1, p.2)))

/-- A complete sequential run of `ed_join` (worker results delivered in record
order): `none` when some record's processing panics. -/
def edJoin (docX docY : List (List Nat)) (sameDoc : Bool) (q tau : Nat) :
    Option (List (Nat × Nat × Nat)) :=
  (recordBlocks docX docY sameDoc q tau).map outputLines

/-- The brute-force oracle: every pair within edit distance `tau`, restricted
to `x_id < y_id` in self-join mode, in row-major order. -/
def naiveJoin (docX docY : List (List Nat)) (selfJoin : Bool) (tau : Nat) :
    List (Nat × Nat × Nat) :=
  docX.enum.flatMap (fun xi =>
    docY.enum.filterMap (fun yj =>
      if (!selfJoin || decide (xi.1 < yj.1)) ∧ levenshtein xi.2 yj.2 ≤ tau
      then some (xi.1, yj.1, levenshtein xi.2 yj.2) else none))

/-- The `y_id` of the first pair of an output element, the value the join
emits for it (each verified element carries exactly one pair). -/
def headY (e : Nat × List (Nat × Nat)) : Nat := (e.2.headD (0, 0)).1

/-- Strict lexicographic order on output lines `(x_id, y_id, ed)`: ascending
`x_id`, then ascending `y_id`. -/
def lineLt (a b : Nat × Nat × Nat) : Prop :=
  a.1 < b.1 ∨ (a.1 = b.1 ∧ a.2.1 < b.2.1)

instance : DecidableRel lineLt := fun a b => by
  unfold lineLt
  infer_instance

/-- The specification's description of `calc_prefix_len` (§4.3): the result is
the smallest `p` in `[tau+1, min(q*tau+1, |arr|)]` whose prefix needs more
than `tau` edits to destroy, or `min(q*tau+1, |arr|)` when no such `p`
exists. -/
def CalcPrefixClaim (arr : List PosQGram) (q tau : Nat) : Prop :=
  (∃ p, tau + 1 ≤ p ∧ p ≤ min (q * tau + 1) arr.length ∧
      tau < minEditErrors (arr.take p) q ∧
      (∀ p2, tau + 1 ≤ p2 → p2 < p → minEditErrors (arr.take p2) q ≤ tau) ∧
      calcPrefixLen arr q tau = p) ∨
  ((∀ p, tau + 1 ≤ p → p ≤ min (q * tau + 1) arr.length →
      minEditErrors (arr.take p) q ≤ tau) ∧
    calcPrefixLen arr q tau = min (q * tau + 1) arr.length)

/-- Bytes of the record `abc`. -/
def sABC : List Nat := [97, 98, 99]

/-- Bytes of the record `xyz`. -/
def sXYZ : List Nat := [120, 121, 122]

/-- Bytes of the record `abd`. -/
def sABD : List Nat := [97, 98, 100]

/-- Bytes of the record `abz`. -/
def sABZ : List Nat := [97, 98, 122]

/-- Bytes of the record `qqq`. -/
def sQQQ : List Nat := [113, 113, 113]

/-- Bytes of the record `abcd`. -/
def sABCD : List Nat := [97, 98, 99, 100]

/-- Bytes of the record `abzzzz`. -/
def sABZZZZ : List Nat := [97, 98, 122, 122, 122, 122]

/-- Bytes of the record `abcuvw`. -/
def sABCUVW : List Nat := [97, 98, 99, 117, 118, 119]

/-- Bytes of the record `ab`. -/
def sAB : List Nat := [97, 98]

/-- A one-token index giving `ab` frequency 2, as `verify` would see for the
records of `idx3` runs; postings are irrelevant to `compare_qgrams`. -/
def idx3 : Index := [([97, 98], ([], 2))]

/-- Ordering of output-vector elements after the final stable sort: strictly
ascending `x_id`, and strictly ascending emitted `y_id` between elements of
equal `x_id`. -/
def outRel (e f : Nat × List (Nat × Nat)) : Prop :=
  e.1 < f.1 ∨ (e.1 = f.1 ∧ headY e < headY f)

/-- Facts about the result block a single record contributes: every element
carries the record's id and exactly one `(y_id, ed)` pair, and the emitted
`y_id`s are strictly increasing along the block. -/
def BlockOK (k : Nat) (bl : List (Nat × List (Nat × Nat))) : Prop :=
  (∀ e ∈ bl, e.1 = k ∧ ∃ y ed, e.2 = [(y, ed)]) ∧
  List.Pairwise (fun e f => headY e < headY f) bl

/-! ## Theorems -/

/-- C1.  On the two-collection input X = [abc, xyz], Y = [abd, abz, qqq] with
q = 2, tau = 2, the join emits exactly (0,0,0), while the naive all-pairs
verifier yields {(0,0,1), (0,1,1), (1,1,2)}: the emitted set differs from the
naive set (the `y`-side contents are read from `doc_x`, `matching.rs:108`),
refuting completeness for general input pairs. -/
theorem edJoin_differs_from_naive_on_S6 :
    edJoin [sABC, sXYZ] [sABD, sABZ, sQQQ] false 2 2 = some [(0, 0, 0)] ∧
    naiveJoin [sABC, sXYZ] [sABD, sABZ, sQQQ] false 2 =
      [(0, 0, 1), (0, 1, 1), (1, 1, 2)] := by
  constructor <;> rfl

/-- C2.  In two-collection mode the record the candidate is verified against
is NOT the `doc_y` record: on X = [abc, xyz], Y = [abd, abz, qqq], q = 2,
tau = 2, the join emits (0,0,0) — edit distance 0, i.e. `abc` compared with
`doc_x`'s own line 0 `abc` — although the distance from `abc` to Y's record 0
`abd` is 1. -/
theorem edJoin_verifies_against_docx_records :
    edJoin [sABC, sXYZ] [sABD, sABZ, sQQQ] false 2 2 = some [(0, 0, 0)] ∧
    levenshtein sABC sABD = 1 ∧ levenshtein sABC sABC = 0 := by
  refine ⟨rfl, rfl, rfl⟩

/-- C3.  `verify` passes `q` — not the run's threshold `tau` — into the slack
parameter of `compare_qgrams` (`verification.rs:262`).  With q = 2, tau = 1
and the equal token `ab` at locations 2 and 0 (|2 − 0| = 2 > tau), the
traversal as invoked by `verify` (slack 2) treats the pair as a match (no
mismatches), whereas with slack tau = 1 it records a strict and loose
mismatch — so equal tokens are NOT matched exactly when |Δloc| ≤ tau. -/
theorem compareQgrams_slack_is_q_not_tau :
    compareQgrams idx3 [⟨[97, 98], 2⟩] [⟨[97, 98], 0⟩] 2 = ([], 0) ∧
    compareQgrams idx3 [⟨[97, 98], 2⟩] [⟨[97, 98], 0⟩] 1 = ([⟨[97, 98], 2⟩], 1) := by
  constructor <;> rfl

/-- C4.  `min_edit_errors` sweeps its input in the GIVEN order — the
location-sorted clone built at `matching.rs:35-40` is never read — so on
[(a,3), (b,1)] with q = 2 it returns 1, while the greedy sweep over the
location-sorted elements returns 2; permuting the input changes the result. -/
theorem minEditErrors_ignores_location_sort :
    minEditErrors [⟨[97], 3⟩, ⟨[98], 1⟩] 2 = 1 ∧
    minEditErrorsSortedFirst [⟨[97], 3⟩, ⟨[98], 1⟩] 2 = 2 ∧
    minEditErrors [⟨[98], 1⟩, ⟨[97], 3⟩] 2 = 2 := by
  refine ⟨rfl, rfl, rfl⟩

/-- C6.  On X = [abcd], Y = [abzzzz], q = 2, tau = 2 (two-collection mode),
the join emits (0, 0, 0), yet the edit distance between X's record 0 and Y's
record 0 is 4 > tau: an emitted pair violates ed(x, y) ≤ tau, because the
`y` side is actually read from `doc_x` (`matching.rs:108`). -/
theorem edJoin_emits_pair_beyond_tau :
    edJoin [sABCD] [sABZZZZ] false 2 2 = some [(0, 0, 0)] ∧
    levenshtein sABCD sABZZZZ = 4 := by
  constructor <;> rfl

/-- C10.  On the self-join input [abcuvw, abcd] with q = 2, tau = 2, the pair
(0, 1) reaches the content filter with loose mismatches cu@2, uv@3, vw@4; the
final probing window is [2, 5), and `l1_distance` slices `y[2..5]` on the
4-byte record `abcd` — out of bounds, a panic (modelled `none`), so the whole
run panics: the probing windows do NOT always lie within the byte bounds of
`y`'s content. -/
theorem l1Distance_window_out_of_bounds :
    l1Distance sABCUVW sABCD 2 5 = none ∧
    contentFilter sABCUVW sABCD [⟨[99, 117], 2⟩, ⟨[117, 118], 3⟩, ⟨[118, 119], 4⟩]
      [(4, 1), (2, 2)] 2 2 = none ∧
    edJoin [sABCUVW, sABCD] [sABCUVW, sABCD] true 2 2 = none := by
  refine ⟨rfl, rfl, rfl⟩

/-- C8 counterexample.  On the byte sequence [0xC3, 0xA9] (the UTF-8 encoding
of `é`) with q = 1, the extractor does not return an array of
max(0, |s| − q + 1) = 2 q-grams: each 1-byte window is invalid UTF-8, so
`std::str::from_utf8(..).expect(..)` panics (modelled `none`). -/
theorem posQGramArrayFrom_panics_on_split_char :
    posQGramArrayFrom [195, 169] 1 = none ∧ max 0 (2 - 1 + 1) = 2 := by
  constructor <;> rfl

/-- C9 counterexample.  `min_edit_errors` returns 0 on the NONEMPTY input
[(a, 0)] (with q = 1): the sweep cursor starts at 0 and an element at
location 0 never passes the `loc > cursor` test, so "returns 0 iff the input
is empty" fails. -/
theorem minEditErrors_zero_on_nonempty :
    minEditErrors [⟨[97], 0⟩] 1 = 0 ∧ ([⟨[97], 0⟩] : List PosQGram) ≠ [] := by
  exact ⟨rfl, by simp⟩

/-- The count component of the `min_edit_errors` sweep never decreases as the
sweep proceeds. -/
theorem meeFold_count_le (q : Nat) (l : List PosQGram) (s : Nat × Nat) :
    s.1 ≤ (l.foldl (meeStep q) s).1 := by
  induction l generalizing s with
  | nil => simp
  | cons g t ih =>
    simp only [List.foldl_cons]
    refine le_trans ?_ (ih (meeStep q s g))
    unfold meeStep
    split <;> simp

/-- The count component of the `min_edit_errors` sweep grows by at most one
per element. -/
theorem meeFold_count_le_add (q : Nat) (l : List PosQGram) (s : Nat × Nat) :
    (l.foldl (meeStep q) s).1 ≤ s.1 + l.length := by
  induction l generalizing s with
  | nil => simp
  | cons g t ih =>
    simp only [List.foldl_cons, List.length_cons]
    refine le_trans (ih (meeStep q s g)) ?_
    unfold meeStep
    split <;> simp <;> omega

/-- A sweep over elements all located at 0 never leaves the initial state. -/
theorem meeFold_all_zero (q : Nat) (l : List PosQGram)
    (h : ∀ g ∈ l, g.loc = 0) : l.foldl (meeStep q) (0, 0) = (0, 0) := by
  induction l with
  | nil => rfl
  | cons g t ih =>
    have hg : g.loc = 0 := h g (List.mem_cons_self g t)
    have hstep : meeStep q (0, 0) g = (0, 0) := by
      unfold meeStep
      simp [hg]
    simp only [List.foldl_cons, hstep]
    exact ih (fun g' hg' => h g' (List.mem_cons_of_mem g hg'))

/-- A sweep from the initial state over a list with some nonzero location
counts at least one error. -/
theorem meeFold_pos (q : Nat) (l : List PosQGram)
    (h : ∃ g ∈ l, g.loc ≠ 0) : 1 ≤ (l.foldl (meeStep q) (0, 0)).1 := by
  induction l with
  | nil => simp at h
  | cons g t ih =>
    obtain ⟨g0, hg0, hne⟩ := h
    by_cases hg : g.loc = 0
    · have hstep : meeStep q (0, 0) g = (0, 0) := by
        unfold meeStep
        simp [hg]
      simp only [List.foldl_cons, hstep]
      refine ih ⟨g0, ?_, hne⟩
      rcases List.mem_cons.1 hg0 with h1 | h1
      · exact absurd (h1 ▸ hg) hne
      · exact h1
    · have hstep : meeStep q (0, 0) g = (1, g.loc + q - 1) := by
        unfold meeStep
        simp [Nat.pos_of_ne_zero hg]
      simp only [List.foldl_cons, hstep]
      exact meeFold_count_le q t (1, g.loc + q - 1)

/-- C9 (amended).  `min_edit_errors` returns 0 iff every element of the input
is located at offset 0 — in particular it returns 0 on the empty input, but
also on nonempty inputs whose locations are all 0 — and its result never
exceeds the input length. -/
theorem minEditErrors_zero_iff_and_le (l : List PosQGram) (q : Nat)
    (hq : 1 ≤ q) :
    (minEditErrors l q = 0 ↔ ∀ g ∈ l, g.loc = 0) ∧
    minEditErrors l q ≤ l.length := by
  refine ⟨⟨fun h0 g hg => ?_, fun h => ?_⟩, ?_⟩
  · by_contra hne
    have := meeFold_pos q l ⟨g, hg, hne⟩
    unfold minEditErrors at h0
    omega
  · unfold minEditErrors
    rw [meeFold_all_zero q l h]
  · have := meeFold_count_le_add q l (0, 0)
    unfold minEditErrors
    omega

/-- C9 witness: the amended statement at the concrete input [(a, 1)], q = 1. -/
theorem minEditErrors_zero_iff_and_le_witness :
    1 ≤ 1 ∧
    ((minEditErrors [⟨[97], 1⟩] 1 = 0 ↔ ∀ g ∈ [(⟨[97], 1⟩ : PosQGram)], g.loc = 0) ∧
      minEditErrors [⟨[97], 1⟩] 1 ≤ [(⟨[97], 1⟩ : PosQGram)].length) :=
  ⟨by decide, minEditErrors_zero_iff_and_le [⟨[97], 1⟩] 1 (by decide)⟩

/-- Clamping the prefix length to the array length does not change the taken
prefix. -/
theorem take_min_length (arr : List PosQGram) (p : Nat) :
    arr.take (min p arr.length) = arr.take p := by
  rcases le_total p arr.length with h | h
  · rw [min_eq_left h]
  · rw [min_eq_right h, List.take_length, List.take_of_length_le h]

/-- Monotonicity of the (order-sensitive) `min_edit_errors` sweep in the
prefix length: sweeping a longer prefix of the same array counts at least as
many errors. -/
theorem minEditErrors_take_mono (arr : List PosQGram) (q : Nat) {p p2 : Nat}
    (h : p ≤ p2) :
    minEditErrors (arr.take p) q ≤ minEditErrors (arr.take p2) q := by
  have hsplit : arr.take p2 = arr.take p ++ (arr.take p2).drop p := by
    conv_lhs => rw [← List.take_append_drop p (arr.take p2)]
    rw [List.take_take, min_eq_left h]
  unfold minEditErrors
  rw [hsplit, List.foldl_append]
  exact meeFold_count_le q _ _

/-- Invariant of the binary-search loop of `calc_prefix_len`: starting from a
state whose left boundary has only failing prefixes below it and whose right
boundary is the initial bound `B` or a succeeding prefix, the loop returns a
boundary with the same two properties. -/
theorem cplGo_inv (arr : List PosQGram) (q tau B : Nat) :
    ∀ fuel left right, right - left ≤ fuel → tau + 1 ≤ left → left ≤ right →
    right ≤ B →
    (left = tau + 1 ∨ minEditErrors (arr.take (left - 1)) q ≤ tau) →
    (right = B ∨ tau < minEditErrors (arr.take right) q) →
    tau + 1 ≤ cplGo arr q tau fuel left right ∧
    cplGo arr q tau fuel left right ≤ B ∧
    (cplGo arr q tau fuel left right = tau + 1 ∨
      minEditErrors (arr.take (cplGo arr q tau fuel left right - 1)) q ≤ tau) ∧
    (cplGo arr q tau fuel left right = B ∨
      tau < minEditErrors (arr.take (cplGo arr q tau fuel left right)) q) := by
  intro fuel
  induction fuel with
  | zero =>
    intro left right hf hl hlr hr hL hR
    have : left = right := by omega
    subst this
    exact ⟨hl, hr, hL, hR⟩
  | succ fuel ih =>
    intro left right hf hl hlr hr hL hR
    unfold cplGo
    by_cases hlt : left < right
    · simp only [hlt, if_true]
      have hmid1 : left ≤ (left + right) / 2 := by omega
      have hmid2 : (left + right) / 2 < right := by omega
      rw [take_min_length]
      by_cases herr : minEditErrors (arr.take ((left + right) / 2)) q ≤ tau
      · simp only [herr, if_true]
        refine ih ((left + right) / 2 + 1) right (by omega) (by omega) (by omega) hr ?_ hR
        right
        simpa using herr
      · simp only [herr, if_false]
        refine ih left ((left + right) / 2) (by omega) hl (by omega) (by omega) hL ?_
        right
        omega
    · simp only [hlt, if_false]
      have : left = right := by omega
      subst this
      exact ⟨hl, hr, hL, hR⟩

/-- C5.  `calc_prefix_len` meets the specification's description: for q ≥ 1,
tau ≥ 1 it returns the smallest `p` in `[tau+1, min(q*tau+1, |arr|)]` whose
prefix requires more than `tau` edit errors (as computed by
`min_edit_errors`), and `min(q*tau+1, |arr|)` when no such `p` exists. -/
theorem calcPrefixLen_meets_claim (arr : List PosQGram) (q tau : Nat)
    (hq : 1 ≤ q) (ht : 1 ≤ tau) : CalcPrefixClaim arr q tau := by
  have hB : tau + 1 ≤ q * tau + 1 := by
    have : tau ≤ q * tau := Nat.le_mul_of_pos_left tau hq
    omega
  obtain ⟨h1, h2, h3, h4⟩ := cplGo_inv arr q tau (q * tau + 1)
    (q * tau + 1 - (tau + 1)) (tau + 1) (q * tau + 1)
    (le_refl _) (le_refl _) hB (le_refl _) (Or.inl rfl) (Or.inl rfl)
  set r0 := cplGo arr q tau (q * tau + 1 - (tau + 1)) (tau + 1) (q * tau + 1) with hr0
  have hcalc : calcPrefixLen arr q tau = min r0 arr.length := rfl
  by_cases hexc : tau < minEditErrors (arr.take r0) q
  · by_cases hlen : r0 ≤ arr.length
    · left
      refine ⟨r0, h1, ?_, hexc, ?_, ?_⟩
      · omega
      · intro p2 hp2a hp2b
        rcases h3 with h3 | h3
        · omega
        · exact le_trans (minEditErrors_take_mono arr q (by omega : p2 ≤ r0 - 1)) h3
      · omega
    · right
      constructor
      · intro p hpa hpb
        rcases h3 with h3 | h3
        · omega
        · exact le_trans (minEditErrors_take_mono arr q (by omega : p ≤ r0 - 1)) h3
      · omega
  · have hB0 : r0 = q * tau + 1 := by
      rcases h4 with h4 | h4
      · exact h4
      · omega
    right
    constructor
    · intro p hpa hpb
      refine le_trans (minEditErrors_take_mono arr q (by omega : p ≤ r0)) ?_
      omega
    · omega

/-- C5 witness: the claim-form statement at the concrete input of the source's
own unit test (`matching.rs:278-299`): the q-grams of `hello` given in
frequency order, q = 2, tau = 2 (the result is 4). -/
theorem calcPrefixLen_meets_claim_witness :
    1 ≤ 2 ∧
    CalcPrefixClaim [⟨[108, 111], 3⟩, ⟨[104, 101], 0⟩, ⟨[101, 108], 1⟩, ⟨[108, 108], 2⟩] 2 2 :=
  ⟨by decide,
    calcPrefixLen_meets_claim
      [⟨[108, 111], 3⟩, ⟨[104, 101], 0⟩, ⟨[101, 108], 1⟩, ⟨[108, 108], 2⟩]
      2 2 (by decide) (by decide)⟩

/-- C8 (amended).  For every byte sequence all of whose `q`-byte windows are
valid UTF-8 (in particular every ASCII sequence) and every q ≥ 1, the
extractor succeeds and returns exactly max(0, |s| − q + 1) positional
q-grams, in ascending location order, the entry at index `i` carrying
location `i` and the `q`-byte window of `s` starting at `i`.  (Without the
UTF-8 condition the extractor can panic, see the counterexample.) -/
theorem posQGramArrayFrom_spec (s : List Nat) (q : Nat) (hq : 1 ≤ q)
    (hv : (windows s q).all utf8Valid = true) :
    ∃ arr, posQGramArrayFrom s q = some arr ∧
      arr.length = (if q ≤ s.length then s.length + 1 - q else 0) ∧
      (∀ i, ∀ h : i < arr.length,
        (arr.get ⟨i, h⟩).token = (s.drop i).take q ∧ (arr.get ⟨i, h⟩).loc = i) ∧
      List.Pairwise (fun a b => a.loc < b.loc) arr := by
  refine ⟨(windows s q).enum.map fun p => ⟨p.2, p.1⟩, ?_, ?_, ?_, ?_⟩
  · simp [posQGramArrayFrom, hv]
  · by_cases hl : q ≤ s.length
    · simp [windows, hq, hl]
    · simp [windows, hq, hl]
  · intro i h
    have hws : i < (windows s q).length := by simpa using h
    have hwin : (windows s q)[i] = (s.drop i).take q := by
      have hl : q ≤ s.length := by
        by_contra hl
        simp [windows, hl] at hws
      simp [windows, hq, hl]
    constructor
    · simp [List.get_eq_getElem, hwin]
    · simp [List.get_eq_getElem]
  · rw [List.pairwise_iff_get]
    intro i j hij
    simp only [List.get_eq_getElem, List.getElem_map, List.getElem_enum]
    simpa using hij

/-- C8 amended-claim witness: the statement instantiated at the ASCII record
`hello` with q = 2 (four q-grams at locations 0..3). -/
theorem posQGramArrayFrom_spec_witness :
    1 ≤ 2 ∧ ((windows [104, 101, 108, 108, 111] 2).all utf8Valid = true) ∧
    (∃ arr, posQGramArrayFrom [104, 101, 108, 108, 111] 2 = some arr ∧
      arr.length = (if 2 ≤ ([104, 101, 108, 108, 111] : List Nat).length
        then ([104, 101, 108, 108, 111] : List Nat).length + 1 - 2 else 0) ∧
      (∀ i, ∀ h : i < arr.length,
        (arr.get ⟨i, h⟩).token = (([104, 101, 108, 108, 111] : List Nat).drop i).take 2 ∧
        (arr.get ⟨i, h⟩).loc = i) ∧
      List.Pairwise (fun a b => a.loc < b.loc) arr) :=
  ⟨by decide, by decide,
    posQGramArrayFrom_spec [104, 101, 108, 108, 111] 2 (by decide) (by decide)⟩

/-- Membership in an insertion is membership in the inserted element or the
list. -/
theorem mem_insertBy {lt : α → α → Bool} {a x : α} {l : List α} :
    a ∈ insertBy lt x l ↔ a = x ∨ a ∈ l := by
  induction l with
  | nil => simp [insertBy]
  | cons b t ih =>
    unfold insertBy
    split
    · simp only [List.mem_cons, ih]
      tauto
    · simp

/-- `sortBy` permutes membership. -/
theorem mem_sortBy {lt : α → α → Bool} {a : α} {l : List α} :
    a ∈ sortBy lt l ↔ a ∈ l := by
  induction l with
  | nil => simp [sortBy]
  | cons b t ih =>
    unfold sortBy
    rw [mem_insertBy]
    simp [ih]

/-- Inserting an element into an `outRel`-sorted output vector (by the stable
key comparator on `x_id`) preserves the ordering, provided the element emits a
smaller `y_id` than every element of equal `x_id` already present. -/
theorem insertBy_outRel (x : Nat × List (Nat × Nat))
    (m : List (Nat × List (Nat × Nat))) (hm : List.Pairwise outRel m)
    (hx : ∀ f ∈ m, x.1 = f.1 → headY x < headY f) :
    List.Pairwise outRel (insertBy (fun a b => a.1 < b.1) x m) := by
  induction m with
  | nil => simp [insertBy]
  | cons b t ih =>
    rw [List.pairwise_cons] at hm
    unfold insertBy
    split
    · rename_i hb
      rw [List.pairwise_cons]
      constructor
      · intro c hc
        rcases mem_insertBy.1 hc with hcx | hct
        · subst hcx
          left
          simpa using hb
        · exact hm.1 c hct
      · exact ih hm.2 (fun f hf h => hx f (List.mem_cons_of_mem b hf) h)
    · rename_i hb
      have hxb : x.1 ≤ b.1 := by simpa using hb
      rw [List.pairwise_cons]
      constructor
      · intro c hc
        rcases List.mem_cons.1 hc with hcb | hct
        · subst hcb
          rcases Nat.lt_or_ge x.1 c.1 with h | h
          · exact Or.inl h
          · have heq : x.1 = c.1 := le_antisymm hxb h
            exact Or.inr ⟨heq, hx c (List.mem_cons_self c t) heq⟩
        · have hbc : b.1 ≤ c.1 := by
            rcases hm.1 c hct with h | h
            · omega
            · omega
          rcases Nat.lt_or_ge x.1 c.1 with h | h
          · exact Or.inl h
          · have heq : x.1 = c.1 := le_antisymm (le_trans hxb hbc) h
            exact Or.inr ⟨heq, hx c (List.mem_cons_of_mem b hct) heq⟩
      · exact List.pairwise_cons.2 hm

/-- The stable sort of the collected output vector by `x_id` is `outRel`-sorted
whenever elements sharing an `x_id` already emit strictly increasing `y_id`s
in delivery order. -/
theorem sortOutput_pairwise (l : List (Nat × List (Nat × Nat)))
    (h : List.Pairwise (fun e f => e.1 = f.1 → headY e < headY f) l) :
    List.Pairwise outRel (sortOutput l) := by
  induction l with
  | nil => exact List.Pairwise.nil
  | cons x t ih =>
    rw [List.pairwise_cons] at h
    unfold sortOutput sortBy
    refine insertBy_outRel x _ (ih h.2) ?_
    intro f hf heq
    exact h.1 f (mem_sortBy.1 hf) heq

/-- Inserting into a `≤`-sorted list of naturals preserves sortedness. -/
theorem insertBy_nat_le (x : Nat) (m : List Nat)
    (hm : List.Pairwise (· ≤ ·) m) :
    List.Pairwise (· ≤ ·) (insertBy (fun a b => a < b) x m) := by
  induction m with
  | nil => simp [insertBy]
  | cons b t ih =>
    rw [List.pairwise_cons] at hm
    unfold insertBy
    split
    · rename_i hb
      rw [List.pairwise_cons]
      refine ⟨fun c hc => ?_, ih hm.2⟩
      rcases mem_insertBy.1 hc with hcx | hct
      · have hbx : b < x := by simpa using hb
        omega
      · exact hm.1 c hct
    · rename_i hb
      have hxb : x ≤ b := by simpa using hb
      rw [List.pairwise_cons]
      refine ⟨fun c hc => ?_, List.pairwise_cons.2 hm⟩
      rcases List.mem_cons.1 hc with hcb | hct
      · omega
      · exact le_trans hxb (hm.1 c hct)

/-- The candidate sort produces an ascending list of ids. -/
theorem sortBy_nat_le (l : List Nat) :
    List.Pairwise (· ≤ ·) (sortBy (fun a b => a < b) l) := by
  induction l with
  | nil => exact List.Pairwise.nil
  | cons x t ih => exact insertBy_nat_le x _ ih

/-- Sorting then deduplicating a list of ids yields a strictly increasing
list — the shape of the candidate set probed by `ed_join`. -/
theorem dedup_sortBy_lt (l : List Nat) :
    List.Pairwise (· < ·) (List.dedup (sortBy (fun a b => a < b) l)) := by
  have hle : List.Pairwise (· ≤ ·) (List.dedup (sortBy (fun a b => a < b) l)) :=
    List.Pairwise.sublist (List.dedup_sublist _) (sortBy_nat_le l)
  have hne : List.Pairwise (· ≠ ·) (List.dedup (sortBy (fun a b => a < b) l)) :=
    List.nodup_dedup _
  exact (hle.and hne).imp (fun h => lt_of_le_of_ne h.1 h.2)

/-- A successful `verify` emits the pair of the verified candidate: the
result carries the record's line id and exactly the one `(candidate_id, ed)`
pair. -/
theorem verify_shape (x : List PosQGram) (lineId : Nat) (lc : List Nat)
    (y : List PosQGram) (cid : Nat) (cc : List Nat) (idx : Index) (q tau : Nat)
    (r : Nat × List (Nat × Nat))
    (h : verify x lineId lc y cid cc idx q tau = some (some r)) :
    r.1 = lineId ∧ ∃ ed, r.2 = [(cid, ed)] := by
  simp only [verify] at h
  repeat' split at h
  all_goals simp_all
  all_goals (subst h; exact ⟨rfl, _, rfl⟩)

/-- The emitted `y_id` of an element whose pair list is the singleton
`[(c, ed)]` is `c`. -/
theorem headY_of_singleton {e : Nat × List (Nat × Nat)} {c ed : Nat}
    (h : e.2 = [(c, ed)]) : headY e = c := by
  unfold headY
  rw [h]
  rfl

/-- Running the verification step over a strictly increasing candidate list
yields a block whose elements all carry the record id, each with the single
pair of one candidate, with strictly increasing emitted `y_id`s. -/
theorem verifyAll_ok (step : Nat → Option (Option (Nat × List (Nat × Nat))))
    (xid : Nat)
    (hstep : ∀ c r, step c = some (some r) → r.1 = xid ∧ ∃ ed, r.2 = [(c, ed)]) :
    ∀ cands vl, List.Pairwise (· < ·) cands → verifyAll step cands = some vl →
      (∀ e ∈ vl, e.1 = xid ∧ ∃ c ed, c ∈ cands ∧ e.2 = [(c, ed)]) ∧
      List.Pairwise (fun e f => headY e < headY f) vl := by
  intro cands
  induction cands with
  | nil =>
    intro vl _ h
    simp only [verifyAll, Option.some.injEq] at h
    subst h
    simp
  | cons c cs ih =>
    intro vl hp h
    rw [List.pairwise_cons] at hp
    simp only [verifyAll, Option.pure_def, Option.bind_eq_bind,
      Option.bind_eq_some] at h
    obtain ⟨r, hr, rest, hrest, hvl⟩ := h
    obtain ⟨hfacts, hpw⟩ := ih rest hp.2 hrest
    simp only [Option.some.injEq] at hvl
    match r with
    | none =>
      subst hvl
      refine ⟨fun e he => ?_, hpw⟩
      obtain ⟨h1, c2, ed2, hc2, h2⟩ := hfacts e he
      exact ⟨h1, c2, ed2, List.mem_cons_of_mem c hc2, h2⟩
    | some e0 =>
      subst hvl
      obtain ⟨he0, ed0, hed0⟩ := hstep c e0 hr
      constructor
      · intro e he
        rcases List.mem_cons.1 he with rfl | he
        · exact ⟨he0, c, ed0, List.mem_cons_self c cs, hed0⟩
        · obtain ⟨h1, c2, ed2, hc2, h2⟩ := hfacts e he
          exact ⟨h1, c2, ed2, List.mem_cons_of_mem c hc2, h2⟩
      · rw [List.pairwise_cons]
        refine ⟨fun f hf => ?_, hpw⟩
        obtain ⟨_, c2, ed2, hc2, h2⟩ := hfacts f hf
        rw [headY_of_singleton hed0, headY_of_singleton h2]
        exact hp.1 c2 hc2

/-- The candidate list built by `ed_join` for a record is strictly
increasing: it is the deduplication of a sorted id list. -/
theorem candidatesOf_sorted (idx : Index) (yVec : List (List Nat))
    (sameDoc : Bool) (tau xId xLen : Nat) (grams : List PosQGram)
    (cs : List Nat)
    (h : candidatesOf idx yVec sameDoc tau xId xLen grams = some cs) :
    List.Pairwise (· < ·) cs := by
  simp only [candidatesOf, Option.pure_def, Option.bind_eq_bind,
    Option.bind_eq_some, Option.some.injEq] at h
  obtain ⟨lists, _, hcs⟩ := h
  subst hcs
  exact dedup_sortBy_lt _

/-- A record's successful processing yields a `BlockOK` block for its id. -/
theorem processRecord_blockOK (idx : Index) (yVec : List (List Nat))
    (sameDoc : Bool) (q tau xId : Nat) (xc : List Nat)
    (bl : List (Nat × List (Nat × Nat)))
    (h : processRecord idx yVec sameDoc q tau xId xc = some bl) :
    BlockOK xId bl := by
  simp only [processRecord, Option.pure_def, Option.bind_eq_bind,
    Option.bind_eq_some, Option.some.injEq] at h
  obtain ⟨qx, _, cands, hcands, vl, hvl, hbl⟩ := h
  have hsorted := candidatesOf_sorted _ _ _ _ _ _ _ _ hcands
  have hstep : ∀ c r,
      (do
        let yc ← yVec.get? c
        let qy ← posQGramArrayFrom yc q
        verify (sortByFrequency idx qx) xId xc qy c yc idx q tau) = some (some r) →
      r.1 = xId ∧ ∃ ed, r.2 = [(c, ed)] := by
    intro c r hc
    simp only [Option.bind_eq_bind, Option.bind_eq_some] at hc
    obtain ⟨yc, _, qy, _, hv⟩ := hc
    exact verify_shape _ _ _ _ _ _ _ _ _ _ hv
  obtain ⟨hfacts, hpw⟩ := verifyAll_ok _ xId hstep cands vl hsorted hvl
  subst hbl
  constructor
  · intro e he
    rw [List.mem_map] at he
    obtain ⟨e0, he0, rfl⟩ := he
    obtain ⟨h1, c2, ed2, _, h2⟩ := hfacts e0 he0
    refine ⟨h1, c2, ed2, ?_⟩
    simp only [h2]
    rfl
  · rw [List.pairwise_map]
    refine hpw.imp_of_mem ?_
    intro e f he hf hlt
    obtain ⟨_, c2, ed2, _, h2⟩ := hfacts e he
    obtain ⟨_, c3, ed3, _, h3⟩ := hfacts f hf
    have he2 : (e.1, sortBy (fun a b : Nat × Nat => a.1 < b.1) e.2).2 = [(c2, ed2)] := by
      simp only [h2]
      rfl
    have hf3 : (f.1, sortBy (fun a b : Nat × Nat => a.1 < b.1) f.2).2 = [(c3, ed3)] := by
      simp only [h3]
      rfl
    rw [headY_of_singleton he2, headY_of_singleton hf3]
    rw [headY_of_singleton h2, headY_of_singleton h3] at hlt
    exact hlt

/-- Processing the records `xs` with consecutive ids from `start` yields one
`BlockOK` block per record, the `i`-th for id `start + i`. -/
theorem recordBlocksGo_ok (idx : Index) (yVec : List (List Nat))
    (sameDoc : Bool) (q tau : Nat) :
    ∀ xs start bs, recordBlocksGo idx yVec sameDoc q tau start xs = some bs →
      bs.length = xs.length ∧
      ∀ i, ∀ hi : i < bs.length, BlockOK (start + i) (bs.get ⟨i, hi⟩) := by
  intro xs
  induction xs with
  | nil =>
    intro start bs h
    simp only [recordBlocksGo, Option.some.injEq] at h
    subst h
    exact ⟨rfl, fun i hi => absurd hi (by simp)⟩
  | cons x xs ih =>
    intro start bs h
    simp only [recordBlocksGo, Option.pure_def, Option.bind_eq_bind,
      Option.bind_eq_some, Option.some.injEq] at h
    obtain ⟨b, hb, rest, hrest, hbs⟩ := h
    obtain ⟨hlen, hblocks⟩ := ih (start + 1) rest hrest
    subst hbs
    refine ⟨by simp [hlen], fun i hi => ?_⟩
    match i with
    | 0 =>
      simpa using processRecord_blockOK _ _ _ _ _ _ _ _ hb
    | i + 1 =>
      have := hblocks i (by simpa using hi)
      simpa [Nat.add_assoc, Nat.add_comm 1 i] using this

/-- Sorting the output vector does not change its members. -/
theorem mem_sortOutput {a : Nat × List (Nat × Nat)}
    {l : List (Nat × List (Nat × Nat))} : a ∈ sortOutput l ↔ a ∈ l := by
  unfold sortOutput
  exact mem_sortBy

/-- C7.  Whenever a run completes (`recordBlocks = some bs`) and the worker
threads deliver the per-record result blocks in ANY order `bp` (any
permutation of the blocks), the emitted lines are strictly sorted by `x_id`
and, within equal `x_id`, by `y_id`: the final stable sort by `x_id` erases
the scheduling nondeterminism because each block carries a single record's id
and lists its matches in ascending candidate order. -/
theorem edJoin_output_sorted (docX docY : List (List Nat)) (sameDoc : Bool)
    (q tau : Nat) (bs bp : List (List (Nat × List (Nat × Nat))))
    (hbs : recordBlocks docX docY sameDoc q tau = some bs)
    (hp : List.Perm bp bs) :
    List.Pairwise lineLt (outputLines bp) := by
  simp only [recordBlocks, Option.pure_def, Option.bind_eq_bind,
    Option.bind_eq_some] at hbs
  obtain ⟨idx, _, hgo⟩ := hbs
  obtain ⟨hlen, hblocks⟩ := recordBlocksGo_ok idx docX sameDoc q tau docX 0 bs hgo
  have hmem : ∀ bl ∈ bs, ∃ k, BlockOK k bl := by
    intro bl hbl
    obtain ⟨i, hi⟩ := List.mem_iff_get.1 hbl
    exact ⟨0 + i.1, by rw [← hi]; exact hblocks i.1 i.2⟩
  have hdk : List.Pairwise (fun A B => ∀ e ∈ A, ∀ f ∈ B, e.1 ≠ f.1) bs := by
    rw [List.pairwise_iff_get]
    intro i j hij e he f hf
    have h1 := ((hblocks i.1 i.2).1 e he).1
    have h2 := ((hblocks j.1 j.2).1 f hf).1
    have hij2 : i.1 < j.1 := hij
    omega
  have hdkp : List.Pairwise (fun A B => ∀ e ∈ A, ∀ f ∈ B, e.1 ≠ f.1) bp := by
    refine (hp.pairwise_iff ?_).2 hdk
    intro A B h e he f hf
    exact (h f hf e he).symm
  have hmemp : ∀ bl ∈ bp, ∃ k, BlockOK k bl := fun bl hbl =>
    hmem bl (hp.mem_iff.1 hbl)
  have hgood : ∀ e ∈ bp.flatten, ∃ y ed, e.2 = [(y, ed)] := by
    intro e he
    rw [List.mem_flatten] at he
    obtain ⟨bl, hbl, hebl⟩ := he
    obtain ⟨k, hk⟩ := hmemp bl hbl
    exact (hk.1 e hebl).2
  have hH : List.Pairwise (fun e f => e.1 = f.1 → headY e < headY f) bp.flatten := by
    rw [List.pairwise_flatten]
    constructor
    · intro bl hbl
      obtain ⟨k, hk⟩ := hmemp bl hbl
      exact hk.2.imp (fun {e f} h => fun (_ : e.1 = f.1) => h)
    · exact hdkp.imp (fun h e he f hf heq => absurd heq (h e he f hf))
  have hsorted := sortOutput_pairwise _ hH
  unfold outputLines
  rw [List.pairwise_flatMap]
  constructor
  · intro e he
    obtain ⟨y0, ed0, h2⟩ := hgood e (mem_sortOutput.1 he)
    rw [h2]
    simp
  · refine hsorted.imp_of_mem ?_
    intro e f he hf hrel a ha b hb
    obtain ⟨ye, ede, h2⟩ := hgood e (mem_sortOutput.1 he)
    obtain ⟨yf, edf, h3⟩ := hgood f (mem_sortOutput.1 hf)
    rw [h2] at ha
    rw [h3] at hb
    simp only [List.map_cons, List.map_nil, List.mem_singleton] at ha hb
    subst ha
    subst hb
    rcases hrel with h | ⟨heq, hy⟩
    · exact Or.inl h
    · right
      refine ⟨heq, ?_⟩
      rw [headY_of_singleton h2, headY_of_singleton h3] at hy
      simpa using hy

/-- C7 witness: on the self-join input [ab, ab] with q = 2, tau = 1 the run
produces the blocks [[(0, [(1, 0)])], []]; delivering them in the reversed
order still yields output lines sorted by (x_id, y_id). -/
theorem edJoin_output_sorted_witness :
    recordBlocks [sAB, sAB] [sAB, sAB] true 2 1 = some [[(0, [(1, 0)])], []] ∧
    List.Perm [[], [(0, [(1, 0)])]] [[(0, [(1, 0)])], []] ∧
    List.Pairwise lineLt (outputLines [[], [(0, [(1, 0)])]]) :=
  ⟨by decide, by decide,
    edJoin_output_sorted [sAB, sAB] [sAB, sAB] true 2 1 [[(0, [(1, 0)])], []]
      [[], [(0, [(1, 0)])]] (by decide) (by decide)⟩

end EdJoin
